import Mathlib

/-!
Verification development for `generate_wind_table.py`.

The numeric core (`compute_wind_table`) is embedded over the real numbers:
unit constants, a `linspace` time grid, the guarded ratio, the mass-loss
expression and the luminosity.  The table writer (`write_wind_table`) is
embedded over the rationals (every machine float is a rational), together
with a computable model of the C `% .8e` conversion and a parser used to
state the round-trip property.
-/

namespace WindGen

noncomputable def SECONDS_PER_YEAR : ℝ := 365.25 * 24 * 3600

noncomputable def MSUN_CGS : ℝ := 1.98847e33

noncomputable def KM_TO_CM : ℝ := 1.0e5

/-- `np.linspace(0.0, stop, num)`: `num` evenly spaced samples from `0` to
`stop` inclusive; for `num = 1` numpy returns `[start] = [0]`, for
`num = 0` the empty array. -/
noncomputable def linspace (stop : ℝ) (num : ℕ) : List ℝ :=
  if num = 1 then [0]
  else (List.range num).map fun (i : ℕ) => stop * (i : ℝ) / ((num : ℝ) - 1)

/-- The time grid of `compute_wind_table`: `np.linspace(0.0, t_f, n_steps)`
with `t_f` converted from years to seconds. -/
noncomputable def windTimes (t_f_years : ℝ) (n_steps : ℕ) : List ℝ :=
  linspace (t_f_years * SECONDS_PER_YEAR) n_steps

/-- `np.divide(times, t_ej, out=np.zeros_like(times), where=t_ej != 0)`:
elementwise guarded division. -/
noncomputable def windRatios (t_ej : ℝ) (times : List ℝ) : List ℝ :=
  times.map fun t => if t_ej ≠ 0 then t / t_ej else 0

/-- The mass-loss rates: zero where the ratio is zero, otherwise
`m_ej * (1 - exp(ratio^2)) * ratio^(-2) / (sqrt(pi) * t_ej)`. -/
noncomputable def windMws (m_ej t_ej : ℝ) (rs : List ℝ) : List ℝ :=
  rs.map fun r =>
    if r ≠ 0 then
      m_ej * (1 - Real.exp (r ^ 2)) * r ^ (-2 : ℤ) / (Real.sqrt Real.pi * t_ej)
    else 0

/-- `compute_wind_table` from the source: converts units, builds the grid,
computes mass-loss rates and luminosities, and returns
`(times, lw, np.full_like(times, v_ej))`. -/
noncomputable def compute_wind_table (t_f_years t_ej_years m_ej_msun v_ej_km_s : ℝ)
    (n_steps : ℕ) : List ℝ × List ℝ × List ℝ :=
  let t_ej := t_ej_years * SECONDS_PER_YEAR
  let m_ej := m_ej_msun * MSUN_CGS
  let v_ej := v_ej_km_s * KM_TO_CM
  let times := windTimes t_f_years n_steps
  let mws := windMws m_ej t_ej (windRatios t_ej times)
  (times, mws.map fun m => m * v_ej ^ 2, times.map fun _ => v_ej)

/-- One row of the output matrix of `write_wind_table`:
`data = np.zeros((times.size, 63)); data[i, 0] = t; data[i, 1] = l; data[i, 3] = v`. -/
def windRow {α : Type} [Zero α] (t l v : α) : List α :=
  (List.range 63).map fun j => if j = 0 then t else if j = 1 then l else if j = 3 then v else 0

/-- The full output matrix of `write_wind_table`, one row per time sample. -/
def windMatrix {α : Type} [Zero α] (times lw v : List α) : List (List α) :=
  (times.zip (lw.zip v)).map fun p => windRow p.1 p.2.1 p.2.2

/-- The character for the decimal digit `d`. -/
def digitChar (d : ℕ) : Char := Char.ofNat (48 + d)

/-- Little-endian base-10 digits, driven by explicit fuel so that it is
structurally recursive. -/
def natDigitsAux : ℕ → ℕ → List ℕ
  | 0, _ => []
  | _ + 1, 0 => []
  | fuel + 1, n + 1 => (n + 1) % 10 :: natDigitsAux fuel ((n + 1) / 10)

/-- Little-endian base-10 digits of `n` (empty for `0`). -/
def natDigits (n : ℕ) : List ℕ := natDigitsAux n n

/-- Most-significant-first digits of `n`, left-padded with zeros to `len`. -/
def padDigits (len n : ℕ) : List ℕ :=
  List.replicate (len - (natDigits n).length) 0 ++ (natDigits n).reverse

/-- Decimal rendering of `n`, zero-padded to at least `len` characters. -/
def renderNat (len n : ℕ) : List Char := (padDigits len n).map digitChar

/-- The decimal exponent of a positive rational: the unique `e` with
`10^e ≤ a < 10^(e+1)`. -/
def decExp (a : ℚ) : ℤ :=
  let e0 : ℤ := (natDigits a.num.natAbs).length - (natDigits a.den).length
  if a < 10 ^ e0 then e0 - 1 else e0

/-- Mantissa and exponent of the `% .8e` conversion of `q`: `s` is the
mantissa scaled by `10^8` (so `10^8 ≤ s < 10^9` for `q ≠ 0`), rounded to
nearest with the decade carry handled, and `e` the decimal exponent. -/
def sciParts (q : ℚ) : ℕ × ℤ :=
  if q = 0 then (0, 0)
  else
    let e := decExp |q|
    let s0 := (⌊|q| * 10 ^ ((8 : ℤ) - e) + 1 / 2⌋).toNat
    if s0 = 10 ^ 9 then (10 ^ 8, e + 1) else (s0, e)

/-- The exponent part of a `% .8e` field: sign and at least two digits. -/
def expoChars (e : ℤ) : List Char :=
  (if e < 0 then '-' else '+') :: renderNat 2 e.natAbs

/-- The characters of a `% .8e` field after the sign position: one digit,
a point, eight fraction digits, `e`, and the exponent. -/
def coreChars (q : ℚ) : List Char :=
  digitChar ((sciParts q).1 / 10 ^ 8) :: '.' ::
    (renderNat 8 ((sciParts q).1 % 10 ^ 8) ++ 'e' :: expoChars (sciParts q).2)

/-- A full `% .8e` field: a space for nonnegative values, `-` otherwise,
then the mantissa and exponent. -/
def fieldChars (q : ℚ) : List Char := (if q < 0 then '-' else ' ') :: coreChars q

/-- A `% .8e` field with the blank sign position stripped, as produced by
whitespace tokenization of a table line. -/
def tokenChars (q : ℚ) : List Char := if q < 0 then '-' :: coreChars q else coreChars q

/-- The rational value denoted by the `% .8e` rendering of `q`. -/
def sciVal (q : ℚ) : ℚ :=
  (if q < 0 then -1 else 1) * ((sciParts q).1 : ℚ) * 10 ^ ((sciParts q).2 - 8)

/-- `sep.join(pieces)`: the pieces joined with a single separator and no
trailing separator. -/
def joinWith (c : Char) : List (List Char) → List Char
  | [] => []
  | [x] => x
  | x :: y :: xs => x ++ c :: joinWith c (y :: xs)

/-- `text.split(sep)` for a one-character separator, keeping empty pieces. -/
def splitOnChar (c : Char) : List Char → List (List Char)
  | [] => [[]]
  | x :: xs =>
    let r := splitOnChar c xs
    if x = c then [] :: r else (x :: r.headD []) :: r.tail

/-- One line of the output table: the 63 fields of a row joined by single
spaces (`" ".join(["% .8e"] * 63) % tuple(row)`). -/
def lineChars (row : List ℚ) : List Char := joinWith ' ' (row.map fieldChars)

/-- The full text written by `write_wind_table`:
`"\n".join(fmt % tuple(row) for row in data)` — newline-separated lines,
no trailing newline. -/
def write_wind_table (times lw v : List ℚ) : List Char :=
  joinWith '\n' ((windMatrix times lw v).map lineChars)

/-- The numeric value of a digit character. -/
def digitVal (c : Char) : Option ℕ := if c.isDigit then some (c.toNat - 48) else none

/-- Parse a most-significant-first digit string. -/
def parseDigitList (cs : List Char) : Option ℕ :=
  cs.foldl (fun acc c => acc.bind fun a => (digitVal c).map fun d => 10 * a + d) (some 0)

/-- Parse a signed exponent part. -/
def parseExpo : List Char → Option ℤ
  | '+' :: ds => (parseDigitList ds).map fun (n : ℕ) => (n : ℤ)
  | '-' :: ds => (parseDigitList ds).map fun (n : ℕ) => -(n : ℤ)
  | _ => none

/-- Parse an unsigned scientific field `d.ffffffffe±EE`. -/
def parseSciPos (cs : List Char) : Option ℚ :=
  match splitOnChar 'e' cs with
  | [m, ex] =>
    match m, parseExpo ex with
    | d :: '.' :: frac, some e =>
      match digitVal d, parseDigitList frac with
      | some dv, some fv => some (((dv : ℚ) + (fv : ℚ) / 10 ^ frac.length) * 10 ^ e)
      | _, _ => none
    | _, _ => none
  | _ => none

/-- Parse a signed scientific field. -/
def parseSci (cs : List Char) : Option ℚ :=
  match cs with
  | [] => none
  | c :: rest => if c = '-' then (parseSciPos rest).map fun v => -v else parseSciPos (c :: rest)

/-- Whitespace tokenization of one line: split on spaces, drop empties. -/
def tokensOf (line : List Char) : List (List Char) :=
  (splitOnChar ' ' line).filter fun t => t ≠ []

/-- Parse a whole table text back into a numeric matrix. -/
def parseTable (cs : List Char) : List (List ℚ) :=
  if cs = [] then []
  else (splitOnChar '\n' cs).map fun line => (tokensOf line).filterMap parseSci

/-- Half a unit in the 8th significant decimal digit of `q`: the tolerance
of an 8-significant-digit decimal rendering. -/
def tol8 (q : ℚ) : ℚ := 10 ^ (decExp |q| - 7) / 2

/-- A token is a well-formed signed scientific field with exactly eight
digits after the decimal point and an exponent of at least two digits. -/
def IsSciE8 (cs : List Char) : Prop :=
  ∃ sgn : Bool, ∃ d : ℕ, ∃ frac eds : List ℕ, ∃ esgn : Bool,
    d < 10 ∧ frac.length = 8 ∧ (∀ x ∈ frac, x < 10) ∧
    2 ≤ eds.length ∧ (∀ x ∈ eds, x < 10) ∧
    cs = (if sgn then ['-'] else []) ++ digitChar d :: '.' ::
      (frac.map digitChar ++ 'e' :: (if esgn then '-' else '+') :: eds.map digitChar)

/-! ### Generic list access lemmas -/

theorem getD_map {α β : Type} (f : α → β) (l : List α) (i : ℕ) (d : β) (d0 : α)
    (hi : i < l.length) : (l.map f).getD i d = f (l.getD i d0) := by
  rw [List.getD_eq_getElem (l.map f) d (by simpa using hi), List.getElem_map,
    List.getD_eq_getElem l d0 hi]

theorem getD_range (n i : ℕ) (hi : i < n) : (List.range n).getD i 0 = i := by
  rw [List.getD_eq_getElem _ _ (by simpa using hi), List.getElem_range]

/-! ### The time grid -/

theorem SECONDS_PER_YEAR_pos : 0 < SECONDS_PER_YEAR := by
  unfold SECONDS_PER_YEAR; norm_num

theorem MSUN_CGS_pos : 0 < MSUN_CGS := by
  unfold MSUN_CGS; norm_num

theorem KM_TO_CM_pos : 0 < KM_TO_CM := by
  unfold KM_TO_CM; norm_num

theorem linspace_length (s : ℝ) (n : ℕ) : (linspace s n).length = n := by
  by_cases h : n = 1 <;> simp [linspace, h]

theorem linspace_getD (s : ℝ) (n i : ℕ) (hn : n ≠ 1) (hi : i < n) :
    (linspace s n).getD i 0 = s * i / ((n : ℝ) - 1) := by
  unfold linspace
  rw [if_neg hn, getD_map (fun j : ℕ => s * j / ((n : ℝ) - 1)) (List.range n) i 0 0
    (by simpa using hi), getD_range n i hi]

theorem windTimes_length (tf : ℝ) (n : ℕ) : (windTimes tf n).length = n :=
  linspace_length _ _

theorem windTimes_getD_zero (tf : ℝ) (n : ℕ) (hn : 1 ≤ n) :
    (windTimes tf n).getD 0 0 = 0 := by
  by_cases h1 : n = 1
  · simp [windTimes, linspace, h1]
  · rw [windTimes, linspace_getD _ n 0 h1 (by omega)]
    simp

theorem windRatios_length (t_ej : ℝ) (times : List ℝ) :
    (windRatios t_ej times).length = times.length := by
  simp [windRatios]

theorem windMws_length (m_ej t_ej : ℝ) (rs : List ℝ) :
    (windMws m_ej t_ej rs).length = rs.length := by
  simp [windMws]

theorem compute_eq (tf tej mej vej : ℝ) (n : ℕ) :
    compute_wind_table tf tej mej vej n =
      (windTimes tf n,
       (windMws (mej * MSUN_CGS) (tej * SECONDS_PER_YEAR)
          (windRatios (tej * SECONDS_PER_YEAR) (windTimes tf n))).map
          (fun m => m * (vej * KM_TO_CM) ^ 2),
       (windTimes tf n).map fun _ => vej * KM_TO_CM) := rfl

theorem compute_lw_length (tf tej mej vej : ℝ) (n : ℕ) :
    ((compute_wind_table tf tej mej vej n).2.1).length = n := by
  rw [compute_eq]
  simp [windMws_length, windRatios_length, windTimes_length]

theorem compute_times_length (tf tej mej vej : ℝ) (n : ℕ) :
    ((compute_wind_table tf tej mej vej n).1).length = n := by
  rw [compute_eq]; exact windTimes_length _ _

/-! ### Elementwise description of ratios, mass-loss rates and luminosities -/

theorem windRatios_getD (t_ej : ℝ) (times : List ℝ) (i : ℕ) (hi : i < times.length)
    (h : t_ej ≠ 0) :
    (windRatios t_ej times).getD i 0 = times.getD i 0 / t_ej := by
  rw [windRatios, getD_map _ _ _ _ 0 hi, if_pos h]

theorem windMws_getD (m_ej t_ej : ℝ) (rs : List ℝ) (i : ℕ) (hi : i < rs.length) :
    (windMws m_ej t_ej rs).getD i 0 =
      if rs.getD i 0 = 0 then 0
      else m_ej * (1 - Real.exp (rs.getD i 0 ^ 2)) * rs.getD i 0 ^ (-2 : ℤ) /
        (Real.sqrt Real.pi * t_ej) := by
  rw [windMws, getD_map _ _ _ _ 0 hi]
  by_cases h : rs.getD i 0 = 0
  · simp [h]
  · simp [h]

theorem compute_lw_getD (tf tej mej vej : ℝ) (n : ℕ) (i : ℕ) (hi : i < n) :
    ((compute_wind_table tf tej mej vej n).2.1).getD i 0 =
      (windMws (mej * MSUN_CGS) (tej * SECONDS_PER_YEAR)
        (windRatios (tej * SECONDS_PER_YEAR) (windTimes tf n))).getD i 0 *
        (vej * KM_TO_CM) ^ 2 := by
  rw [compute_eq]
  exact getD_map _ _ _ _ 0 (by simp [windMws_length, windRatios_length, windTimes_length, hi])

/-! ### All-zero output for a vanishing ejection timescale -/

theorem windRatios_zero_tej (times : List ℝ) :
    ∀ r ∈ windRatios (0 * SECONDS_PER_YEAR) times, r = 0 := by
  intro r hr
  simp only [windRatios, zero_mul, List.mem_map] at hr
  obtain ⟨t, -, ht⟩ := hr
  simpa using ht.symm

theorem windMws_zero_of_ratios (m_ej t_ej : ℝ) (rs : List ℝ) (h : ∀ r ∈ rs, r = 0) :
    ∀ m ∈ windMws m_ej t_ej rs, m = 0 := by
  intro m hm
  simp only [windMws, List.mem_map] at hm
  obtain ⟨r, hr, hrm⟩ := hm
  rw [h r hr] at hrm
  simpa using hrm.symm

theorem compute_lw_zero_tej (tf mej vej : ℝ) (n : ℕ) :
    ∀ x ∈ (compute_wind_table tf 0 mej vej n).2.1, x = 0 := by
  intro x hx
  rw [compute_eq] at hx
  simp only [List.mem_map] at hx
  obtain ⟨m, hm, hmx⟩ := hx
  rw [windMws_zero_of_ratios _ _ _ (windRatios_zero_tej _) m hm] at hmx
  simpa using hmx.symm

theorem compute_times_eq (tf tej mej vej : ℝ) (n : ℕ) :
    (compute_wind_table tf tej mej vej n).1 = windTimes tf n := rfl

theorem compute_v_eq (tf tej mej vej : ℝ) (n : ℕ) :
    (compute_wind_table tf tej mej vej n).2.2 =
      (windTimes tf n).map fun _ => vej * KM_TO_CM := rfl

theorem windTimes_zero (tf : ℝ) : windTimes tf 0 = [] := by
  simp [windTimes, linspace]

theorem getD_zip {α β : Type} (a : List α) (b : List β) (i : ℕ) (da : α) (db : β)
    (ha : i < a.length) (hb : i < b.length) :
    (a.zip b).getD i (da, db) = (a.getD i da, b.getD i db) := by
  rw [List.getD_eq_getElem _ _ (by simp [List.length_zip]; omega),
    List.getD_eq_getElem _ _ ha, List.getD_eq_getElem _ _ hb, List.getElem_zip]

theorem windRow_length {α : Type} [Zero α] (t l v : α) : (windRow t l v).length = 63 := by
  simp [windRow]

theorem windRow_getD {α : Type} [Zero α] (t l v : α) (j : ℕ) (hj : j < 63) :
    (windRow t l v).getD j 0 =
      if j = 0 then t else if j = 1 then l else if j = 3 then v else 0 := by
  rw [windRow, getD_map _ _ _ _ 0 (by simpa using hj), getD_range _ _ hj]

theorem windMatrix_length {α : Type} [Zero α] (times lw v : List α)
    (h1 : lw.length = times.length) (h2 : v.length = times.length) :
    (windMatrix times lw v).length = times.length := by
  simp [windMatrix, List.length_zip, h1, h2]

theorem windMatrix_getD {α : Type} [Zero α] (times lw v : List α)
    (h1 : lw.length = times.length) (h2 : v.length = times.length) (i : ℕ)
    (hi : i < times.length) :
    (windMatrix times lw v).getD i [] =
      windRow (times.getD i 0) (lw.getD i 0) (v.getD i 0) := by
  rw [windMatrix, getD_map _ _ _ _ ((0 : α), ((0 : α), (0 : α)))
    (by simp [List.length_zip, h1, h2]; omega)]
  rw [getD_zip _ _ _ _ _ hi (by simp [List.length_zip, h1, h2]; omega),
    getD_zip _ _ _ _ _ (by omega) (by omega)]

/-! ### Claim theorems: the numeric core -/

/-- C1: for every input with `t_ej > 0` (converted to seconds) and any grid
index, the mass-loss rate is `m_ej * (1 - exp(r^2)) * r^(-2) / (sqrt(pi) * t_ej)`
for ratio `r = t / t_ej` when `r ≠ 0`, exactly zero when `r = 0`, and the
luminosity at that sample is the mass-loss rate times `v_ej^2` (all
quantities unit-converted). -/
theorem mass_loss_and_luminosity_formula (tf tej mej vej : ℝ) (n : ℕ)
    (htej : 0 < tej * SECONDS_PER_YEAR) (i : ℕ) (hi : i < n) :
    (windMws (mej * MSUN_CGS) (tej * SECONDS_PER_YEAR)
        (windRatios (tej * SECONDS_PER_YEAR) (windTimes tf n))).getD i 0 =
      (if (windTimes tf n).getD i 0 / (tej * SECONDS_PER_YEAR) = 0 then 0
       else mej * MSUN_CGS *
         (1 - Real.exp (((windTimes tf n).getD i 0 / (tej * SECONDS_PER_YEAR)) ^ 2)) *
         ((windTimes tf n).getD i 0 / (tej * SECONDS_PER_YEAR)) ^ (-2 : ℤ) /
         (Real.sqrt Real.pi * (tej * SECONDS_PER_YEAR))) ∧
    ((compute_wind_table tf tej mej vej n).2.1).getD i 0 =
      (windMws (mej * MSUN_CGS) (tej * SECONDS_PER_YEAR)
        (windRatios (tej * SECONDS_PER_YEAR) (windTimes tf n))).getD i 0 *
        (vej * KM_TO_CM) ^ 2 := by
  have hT : tej * SECONDS_PER_YEAR ≠ 0 := ne_of_gt htej
  have hlen : i < (windTimes tf n).length := by rw [windTimes_length]; exact hi
  constructor
  · rw [windMws_getD _ _ _ i (by rw [windRatios_length]; exact hlen),
      windRatios_getD _ _ i hlen hT]
  · exact compute_lw_getD tf tej mej vej n i hi

theorem mass_loss_and_luminosity_formula_witness :
    0 < (1 : ℝ) * SECONDS_PER_YEAR ∧ (0 : ℕ) < 2 ∧
    ((windMws ((1 : ℝ) * MSUN_CGS) ((1 : ℝ) * SECONDS_PER_YEAR)
        (windRatios ((1 : ℝ) * SECONDS_PER_YEAR) (windTimes 1 2))).getD 0 0 =
      (if (windTimes (1 : ℝ) 2).getD 0 0 / ((1 : ℝ) * SECONDS_PER_YEAR) = 0 then 0
       else (1 : ℝ) * MSUN_CGS *
         (1 - Real.exp (((windTimes (1 : ℝ) 2).getD 0 0 / ((1 : ℝ) * SECONDS_PER_YEAR)) ^ 2)) *
         ((windTimes (1 : ℝ) 2).getD 0 0 / ((1 : ℝ) * SECONDS_PER_YEAR)) ^ (-2 : ℤ) /
         (Real.sqrt Real.pi * ((1 : ℝ) * SECONDS_PER_YEAR))) ∧
    ((compute_wind_table 1 1 1 1 2).2.1).getD 0 0 =
      (windMws ((1 : ℝ) * MSUN_CGS) ((1 : ℝ) * SECONDS_PER_YEAR)
        (windRatios ((1 : ℝ) * SECONDS_PER_YEAR) (windTimes 1 2))).getD 0 0 *
        ((1 : ℝ) * KM_TO_CM) ^ 2) :=
  have h1 : 0 < (1 : ℝ) * SECONDS_PER_YEAR := by simpa using SECONDS_PER_YEAR_pos
  ⟨h1, by decide, mass_loss_and_luminosity_formula 1 1 1 1 2 h1 0 (by decide)⟩

/-- C2: for `n_steps ≥ 2` and `t_f ≥ 0`, the time array has exactly
`n_steps` elements, starts at `0`, ends at `t_f * SECONDS_PER_YEAR`, and is
monotonically non-decreasing. -/
theorem time_grid_monotone_endpoints (tf tej mej vej : ℝ) (n : ℕ)
    (hn : 2 ≤ n) (hf : 0 ≤ tf) :
    ((compute_wind_table tf tej mej vej n).1).length = n ∧
    ((compute_wind_table tf tej mej vej n).1).getD 0 0 = 0 ∧
    ((compute_wind_table tf tej mej vej n).1).getD (n - 1) 0 = tf * SECONDS_PER_YEAR ∧
    ∀ i j : ℕ, i ≤ j → j < n →
      ((compute_wind_table tf tej mej vej n).1).getD i 0 ≤
        ((compute_wind_table tf tej mej vej n).1).getD j 0 := by
  rw [compute_times_eq]
  have hn1 : n ≠ 1 := by omega
  have h2 : (2 : ℝ) ≤ (n : ℝ) := by exact_mod_cast hn
  have hd : (0 : ℝ) < (n : ℝ) - 1 := by linarith
  refine ⟨windTimes_length tf n, windTimes_getD_zero tf n (by omega), ?_, ?_⟩
  · rw [windTimes, linspace_getD _ n (n - 1) hn1 (by omega)]
    rw [Nat.cast_sub (by omega : 1 ≤ n), Nat.cast_one, mul_div_assoc,
      div_self (by linarith : (n : ℝ) - 1 ≠ 0), mul_one]
  · intro i j hij hj
    rw [windTimes, linspace_getD _ n i hn1 (by omega), linspace_getD _ n j hn1 hj]
    have hs : 0 ≤ tf * SECONDS_PER_YEAR :=
      mul_nonneg hf (le_of_lt SECONDS_PER_YEAR_pos)
    have hcast : (i : ℝ) ≤ (j : ℝ) := by exact_mod_cast hij
    have hnum : tf * SECONDS_PER_YEAR * (i : ℝ) ≤ tf * SECONDS_PER_YEAR * (j : ℝ) :=
      mul_le_mul_of_nonneg_left hcast hs
    exact (div_le_div_iff_of_pos_right hd).mpr hnum

theorem time_grid_monotone_endpoints_witness :
    2 ≤ 2 ∧ (0 : ℝ) ≤ 1 ∧
    (((compute_wind_table 1 1 1 1 2).1).length = 2 ∧
     ((compute_wind_table 1 1 1 1 2).1).getD 0 0 = 0 ∧
     ((compute_wind_table 1 1 1 1 2).1).getD (2 - 1) 0 = (1 : ℝ) * SECONDS_PER_YEAR ∧
     ∀ i j : ℕ, i ≤ j → j < 2 →
       ((compute_wind_table 1 1 1 1 2).1).getD i 0 ≤
         ((compute_wind_table 1 1 1 1 2).1).getD j 0) :=
  ⟨by decide, zero_le_one, time_grid_monotone_endpoints 1 1 1 1 2 (by decide) zero_le_one⟩

/-- C3: for `t_ej = 0`, the guarded division defines every ratio value as
zero, and every mass-loss value and every luminosity value produced by
`compute_wind_table` is zero. -/
theorem zero_timescale_all_zero (tf mej vej : ℝ) (n : ℕ) :
    (∀ r ∈ windRatios (0 * SECONDS_PER_YEAR) (windTimes tf n), r = 0) ∧
    (∀ m ∈ windMws (mej * MSUN_CGS) (0 * SECONDS_PER_YEAR)
        (windRatios (0 * SECONDS_PER_YEAR) (windTimes tf n)), m = 0) ∧
    (∀ x ∈ (compute_wind_table tf 0 mej vej n).2.1, x = 0) :=
  ⟨windRatios_zero_tej _, windMws_zero_of_ratios _ _ _ (windRatios_zero_tej _),
    compute_lw_zero_tej tf mej vej n⟩

/-- C4: for `t_ej > 0` and `n_steps ≥ 1`, the first luminosity sample (at
time `0`) is exactly zero. -/
theorem first_luminosity_zero (tf tej mej vej : ℝ) (n : ℕ)
    (htej : 0 < tej) (hn : 1 ≤ n) :
    ((compute_wind_table tf tej mej vej n).2.1).getD 0 0 = 0 := by
  have hT : tej * SECONDS_PER_YEAR ≠ 0 :=
    ne_of_gt (mul_pos htej SECONDS_PER_YEAR_pos)
  rw [compute_lw_getD _ _ _ _ _ 0 (by omega),
    windMws_getD _ _ _ 0 (by rw [windRatios_length, windTimes_length]; omega),
    windRatios_getD _ _ 0 (by rw [windTimes_length]; omega) hT,
    windTimes_getD_zero _ _ hn]
  simp

theorem first_luminosity_zero_witness :
    (0 : ℝ) < 1 ∧ 1 ≤ 1 ∧ ((compute_wind_table 1 1 1 1 1).2.1).getD 0 0 = 0 :=
  ⟨one_pos, le_refl 1, first_luminosity_zero 1 1 1 1 1 one_pos (le_refl 1)⟩

/-- C5: for every input, every element of the velocity array equals the
converted velocity `v_ej_km_s * 1e5`, the luminosity and time arrays both
have length `n_steps`, and `write_wind_table` places the constant velocity
in column 3 of every output row. -/
theorem velocity_column_constant (tf tej mej vej : ℝ) (n : ℕ) :
    (∀ x ∈ (compute_wind_table tf tej mej vej n).2.2, x = vej * KM_TO_CM) ∧
    ((compute_wind_table tf tej mej vej n).2.1).length = n ∧
    ((compute_wind_table tf tej mej vej n).1).length = n ∧
    ∀ row ∈ windMatrix ((compute_wind_table tf tej mej vej n).1)
        ((compute_wind_table tf tej mej vej n).2.1)
        ((compute_wind_table tf tej mej vej n).2.2),
      row.getD 3 0 = vej * KM_TO_CM := by
  have hv : ∀ x ∈ (compute_wind_table tf tej mej vej n).2.2, x = vej * KM_TO_CM := by
    intro x hx
    rw [compute_v_eq] at hx
    simp only [List.mem_map] at hx
    obtain ⟨-, -, h⟩ := hx
    exact h.symm
  refine ⟨hv, compute_lw_length tf tej mej vej n, compute_times_length tf tej mej vej n, ?_⟩
  intro row hrow
  rw [windMatrix] at hrow
  simp only [List.mem_map] at hrow
  obtain ⟨p, hp, hrw⟩ := hrow
  have hv2 : p.2.2 ∈ (compute_wind_table tf tej mej vej n).2.2 := by
    have h1 := (List.of_mem_zip hp).2
    exact (List.of_mem_zip h1).2
  rw [← hrw, windRow_getD _ _ _ 3 (by omega)]
  simpa using hv p.2.2 hv2

/-- C6: the matrix built by `write_wind_table` has exactly 63 columns per
time sample, with column 0 the time, column 1 the luminosity, column 3 the
velocity, and every other column zero. -/
theorem matrix_columns_spec (times lw v : List ℝ)
    (h1 : lw.length = times.length) (h2 : v.length = times.length) :
    (windMatrix times lw v).length = times.length ∧
    ∀ i : ℕ, i < times.length →
      ((windMatrix times lw v).getD i []).length = 63 ∧
      ((windMatrix times lw v).getD i []).getD 0 0 = times.getD i 0 ∧
      ((windMatrix times lw v).getD i []).getD 1 0 = lw.getD i 0 ∧
      ((windMatrix times lw v).getD i []).getD 3 0 = v.getD i 0 ∧
      ∀ j : ℕ, j < 63 → j ≠ 0 → j ≠ 1 → j ≠ 3 →
        ((windMatrix times lw v).getD i []).getD j 0 = 0 := by
  refine ⟨windMatrix_length times lw v h1 h2, ?_⟩
  intro i hi
  rw [windMatrix_getD times lw v h1 h2 i hi]
  refine ⟨windRow_length _ _ _, ?_, ?_, ?_, ?_⟩
  · rw [windRow_getD _ _ _ 0 (by omega)]; simp
  · rw [windRow_getD _ _ _ 1 (by omega)]; simp
  · rw [windRow_getD _ _ _ 3 (by omega)]; simp
  · intro j hj hj0 hj1 hj3
    rw [windRow_getD _ _ _ j hj, if_neg hj0, if_neg hj1, if_neg hj3]

theorem matrix_columns_spec_witness :
    ([(2 : ℝ)].length = [(1 : ℝ)].length) ∧ ([(3 : ℝ)].length = [(1 : ℝ)].length) ∧
    ((windMatrix [(1 : ℝ)] [(2 : ℝ)] [(3 : ℝ)]).length = [(1 : ℝ)].length ∧
     ∀ i : ℕ, i < [(1 : ℝ)].length →
       ((windMatrix [(1 : ℝ)] [(2 : ℝ)] [(3 : ℝ)]).getD i []).length = 63 ∧
       ((windMatrix [(1 : ℝ)] [(2 : ℝ)] [(3 : ℝ)]).getD i []).getD 0 0 = [(1 : ℝ)].getD i 0 ∧
       ((windMatrix [(1 : ℝ)] [(2 : ℝ)] [(3 : ℝ)]).getD i []).getD 1 0 = [(2 : ℝ)].getD i 0 ∧
       ((windMatrix [(1 : ℝ)] [(2 : ℝ)] [(3 : ℝ)]).getD i []).getD 3 0 = [(3 : ℝ)].getD i 0 ∧
       ∀ j : ℕ, j < 63 → j ≠ 0 → j ≠ 1 → j ≠ 3 →
         ((windMatrix [(1 : ℝ)] [(2 : ℝ)] [(3 : ℝ)]).getD i []).getD j 0 = 0) :=
  ⟨rfl, rfl, matrix_columns_spec [(1 : ℝ)] [(2 : ℝ)] [(3 : ℝ)] rfl rfl⟩

/-- C10: for positive mass, timescale and final time, a nonzero velocity
and at least two samples, every luminosity value at a nonzero time sample
is strictly negative: `1 - exp(r^2) < 0` for every nonzero ratio `r`, so
the computed wind luminosity is never positive. -/
theorem luminosity_never_positive (tf tej mej vej : ℝ) (n : ℕ)
    (hm : 0 < mej) (htej : 0 < tej) (htf : 0 < tf) (hv : vej ≠ 0) (hn : 2 ≤ n)
    (i : ℕ) (h1 : 1 ≤ i) (hi : i < n) :
    ((compute_wind_table tf tej mej vej n).2.1).getD i 0 < 0 := by
  have hS := SECONDS_PER_YEAR_pos
  have hT : 0 < tej * SECONDS_PER_YEAR := mul_pos htej hS
  rw [compute_lw_getD _ _ _ _ _ i hi,
    windMws_getD _ _ _ i (by rw [windRatios_length, windTimes_length]; omega),
    windRatios_getD _ _ i (by rw [windTimes_length]; omega) (ne_of_gt hT),
    windTimes, linspace_getD _ n i (by omega) hi]
  have h2 : (2 : ℝ) ≤ (n : ℝ) := by exact_mod_cast hn
  have hi1 : (1 : ℝ) ≤ (i : ℝ) := by exact_mod_cast h1
  have ht : 0 < tf * SECONDS_PER_YEAR * (i : ℝ) / ((n : ℝ) - 1) := by
    apply div_pos (by nlinarith [mul_pos htf hS]) (by linarith)
  set r := tf * SECONDS_PER_YEAR * (i : ℝ) / ((n : ℝ) - 1) / (tej * SECONDS_PER_YEAR)
    with hr
  have hrpos : 0 < r := div_pos ht hT
  rw [if_neg (ne_of_gt hrpos)]
  have h1e : 1 - Real.exp (r ^ 2) < 0 := by
    have hx : (0 : ℝ) < r ^ 2 := by positivity
    have hy := Real.exp_lt_exp.mpr hx
    rw [Real.exp_zero] at hy
    linarith
  have hrz : r ^ (-2 : ℤ) = (r ^ 2)⁻¹ := by rw [zpow_neg, zpow_two, ← sq]
  rw [hrz]
  apply mul_neg_of_neg_of_pos
  · apply div_neg_of_neg_of_pos
    · apply mul_neg_of_neg_of_pos
      · exact mul_neg_of_pos_of_neg (mul_pos hm MSUN_CGS_pos) h1e
      · exact inv_pos.mpr (by positivity)
    · exact mul_pos (Real.sqrt_pos.mpr Real.pi_pos) hT
  · exact pow_two_pos_of_ne_zero (mul_ne_zero hv (ne_of_gt KM_TO_CM_pos))

theorem luminosity_never_positive_witness :
    (0 : ℝ) < 1 ∧ (1 : ℝ) ≠ 0 ∧ 2 ≤ 2 ∧ 1 ≤ 1 ∧ 1 < 2 ∧
    ((compute_wind_table 1 1 1 1 2).2.1).getD 1 0 < 0 :=
  ⟨one_pos, one_ne_zero, by decide, by decide, by decide,
    luminosity_never_positive 1 1 1 1 2 one_pos one_pos one_pos one_ne_zero
      (by decide) 1 (by decide) (by decide)⟩

/-- C9 counterexample: for a negative ejection timescale the program does
complete, but the output is neither an all-zero nor a single-row table: at
`t_f = 1, t_ej = -1, m_ej = 1, v_ej = 1, n_steps = 2` the luminosity array
has two entries and its second entry is strictly positive. -/
theorem negative_timescale_nonzero_output :
    0 < ((compute_wind_table 1 (-1) 1 1 2).2.1).getD 1 0 ∧
    ((compute_wind_table 1 (-1) 1 1 2).2.1).length = 2 := by
  refine ⟨?_, compute_lw_length 1 (-1) 1 1 2⟩
  have hS := SECONDS_PER_YEAR_pos
  have hT0 : (-1 : ℝ) * SECONDS_PER_YEAR ≠ 0 := ne_of_lt (by nlinarith)
  rw [compute_lw_getD _ _ _ _ _ 1 (by omega),
    windMws_getD _ _ _ 1 (by rw [windRatios_length, windTimes_length]; omega),
    windRatios_getD _ _ 1 (by rw [windTimes_length]; omega) hT0,
    windTimes, linspace_getD _ 2 1 (by omega) (by omega)]
  have htval : (1 : ℝ) * SECONDS_PER_YEAR * (1 : ℕ) / ((2 : ℕ) - 1) /
      ((-1) * SECONDS_PER_YEAR) = -1 := by
    push_cast
    field_simp
    norm_num
  rw [htval, if_neg (by norm_num)]
  have he : 1 < Real.exp 1 := by
    have hy := Real.exp_lt_exp.mpr (one_pos : (0 : ℝ) < 1)
    rwa [Real.exp_zero] at hy
  have hz : ((-1 : ℝ)) ^ (-2 : ℤ) = 1 := by norm_num
  have harg : ((-1 : ℝ)) ^ 2 = 1 := by norm_num
  rw [hz, harg, mul_one]
  apply mul_pos
  · rw [div_pos_iff]
    right
    constructor
    · exact mul_neg_of_pos_of_neg (by simpa using MSUN_CGS_pos) (by linarith)
    · exact mul_neg_of_pos_of_neg (Real.sqrt_pos.mpr Real.pi_pos) (by nlinarith)
  · have : (1 : ℝ) * KM_TO_CM ≠ 0 := by
      simpa using ne_of_gt KM_TO_CM_pos
    exact pow_two_pos_of_ne_zero this

/-- C9 (amended): pathological inputs complete without error and are not
rejected: a zero ejection timescale yields an all-zero luminosity table, a
zero sample count yields an empty table, and a negative ejection timescale
yields a fully populated `n_steps`-row table computed with the same
formula (not necessarily all-zero or single-row). -/
theorem pathological_inputs_degenerate (tf tej mej vej : ℝ) (n : ℕ) (hneg : tej < 0) :
    (∀ x ∈ (compute_wind_table tf 0 mej vej n).2.1, x = 0) ∧
    (compute_wind_table tf tej mej vej 0).1 = [] ∧
    (compute_wind_table tf tej mej vej 0).2.1 = [] ∧
    ((compute_wind_table tf tej mej vej n).1).length = n ∧
    ((compute_wind_table tf tej mej vej n).2.1).length = n := by
  refine ⟨compute_lw_zero_tej tf mej vej n, ?_, ?_,
    compute_times_length tf tej mej vej n, compute_lw_length tf tej mej vej n⟩
  · rw [compute_times_eq, windTimes_zero]
  · rw [compute_eq]
    simp [windTimes_zero, windRatios, windMws]

theorem pathological_inputs_degenerate_witness :
    (-1 : ℝ) < 0 ∧
    ((∀ x ∈ (compute_wind_table 1 0 1 1 2).2.1, x = 0) ∧
     (compute_wind_table 1 (-1) 1 1 0).1 = [] ∧
     (compute_wind_table 1 (-1) 1 1 0).2.1 = [] ∧
     ((compute_wind_table 1 (-1) 1 1 2).1).length = 2 ∧
     ((compute_wind_table 1 (-1) 1 1 2).2.1).length = 2) :=
  ⟨neg_one_lt_zero, pathological_inputs_degenerate 1 (-1) 1 1 2 neg_one_lt_zero⟩

/-! ### Digit rendering and parsing -/

theorem natDigitsAux_eq (fuel : ℕ) : ∀ n : ℕ, n ≤ fuel → natDigitsAux fuel n = Nat.digits 10 n := by
  induction fuel with
  | zero =>
    intro n hn
    interval_cases n
    simp [natDigitsAux]
  | succ f ih =>
    intro n hn
    cases n with
    | zero => simp [natDigitsAux]
    | succ m =>
      have hdiv : (m + 1) / 10 < m + 1 := Nat.div_lt_self (Nat.succ_pos m) (by norm_num)
      rw [natDigitsAux, ih _ (by omega),
        Nat.digits_def' (by norm_num : 1 < 10) (Nat.succ_pos m)]

theorem natDigits_eq (n : ℕ) : natDigits n = Nat.digits 10 n :=
  natDigitsAux_eq n n le_rfl

theorem natDigits_lt (n : ℕ) : ∀ d ∈ natDigits n, d < 10 := by
  rw [natDigits_eq]
  intro d hd
  exact Nat.digits_lt_base (by norm_num) hd

theorem natDigits_len_le (len n : ℕ) (h : n < 10 ^ len) : (natDigits n).length ≤ len := by
  rw [natDigits_eq]
  rcases Nat.eq_zero_or_pos n with h0 | h0
  · simp [h0]
  · rw [Nat.digits_len 10 n (by norm_num) (by omega)]
    have := Nat.log_lt_of_lt_pow (by omega : n ≠ 0) h
    omega

theorem padDigits_lt (len n : ℕ) : ∀ d ∈ padDigits len n, d < 10 := by
  intro d hd
  rcases List.mem_append.mp hd with h | h
  · rw [List.eq_of_mem_replicate h]; norm_num
  · exact natDigits_lt n d (List.mem_reverse.mp h)

theorem padDigits_length (len n : ℕ) (h : n < 10 ^ len) : (padDigits len n).length = len := by
  have := natDigits_len_le len n h
  simp [padDigits]
  omega

theorem padDigits_length_ge (len n : ℕ) : len ≤ (padDigits len n).length := by
  simp [padDigits]
  omega

theorem digitVal_digitChar (d : ℕ) (h : d < 10) : digitVal (digitChar d) = some d := by
  interval_cases d <;> rfl

theorem digitChar_ne_space (d : ℕ) (h : d < 10) : digitChar d ≠ ' ' := by
  interval_cases d <;> decide

theorem digitChar_ne_nl (d : ℕ) (h : d < 10) : digitChar d ≠ '\n' := by
  interval_cases d <;> decide

theorem digitChar_ne_e (d : ℕ) (h : d < 10) : digitChar d ≠ 'e' := by
  interval_cases d <;> decide

theorem digitChar_ne_minus (d : ℕ) (h : d < 10) : digitChar d ≠ '-' := by
  interval_cases d <;> decide

theorem foldl_digits_ofDigits (L : List ℕ) :
    L.reverse.foldl (fun a d => 10 * a + d) 0 = Nat.ofDigits 10 L := by
  induction L with
  | nil => rfl
  | cons d L ih =>
    rw [List.reverse_cons, List.foldl_append, ih, Nat.ofDigits_cons]
    simp
    ring

theorem parseDigitList_map (ds : List ℕ) (h : ∀ d ∈ ds, d < 10) (a : ℕ) :
    (ds.map digitChar).foldl
        (fun acc c => acc.bind fun a => (digitVal c).map fun d => 10 * a + d) (some a) =
      some (ds.foldl (fun a d => 10 * a + d) a) := by
  induction ds generalizing a with
  | nil => rfl
  | cons d ds ih =>
    have hv := digitVal_digitChar d (h d (by simp))
    simp only [List.map_cons, List.foldl_cons, Option.some_bind, hv, Option.map_some']
    exact ih (fun x hx => h x (by simp [hx])) (10 * a + d)

theorem foldl_replicate_zero (k a : ℕ) :
    (List.replicate k 0).foldl (fun a d => 10 * a + d) a = a * 10 ^ k := by
  induction k generalizing a with
  | zero => simp
  | succ m ih =>
    rw [List.replicate_succ, List.foldl_cons, ih]
    ring

theorem parseDigitList_renderNat (len n : ℕ) :
    parseDigitList (renderNat len n) = some n := by
  rw [renderNat, parseDigitList, parseDigitList_map _ (padDigits_lt len n) 0]
  congr 1
  rw [padDigits, List.foldl_append, foldl_replicate_zero, zero_mul,
    foldl_digits_ofDigits, natDigits_eq, Nat.ofDigits_digits]

/-! ### The decimal exponent -/

theorem decExp_spec (a : ℚ) (ha : 0 < a) :
    (10 : ℚ) ^ decExp a ≤ a ∧ a < (10 : ℚ) ^ (decExp a + 1) := by
  have hnum : (a.num.natAbs : ℤ) = a.num := Int.natAbs_of_nonneg (Rat.num_pos.mpr ha).le
  have hd0 : 0 < a.den := a.den_pos
  have hn0 : a.num.natAbs ≠ 0 := by
    have := Rat.num_pos.mpr ha
    omega
  set ln := Nat.log 10 a.num.natAbs with hln
  set ld := Nat.log 10 a.den with hld
  have hLn : (natDigits a.num.natAbs).length = ln + 1 := by
    rw [natDigits_eq]; exact Nat.digits_len 10 _ (by norm_num) hn0
  have hLd : (natDigits a.den).length = ld + 1 := by
    rw [natDigits_eq]; exact Nat.digits_len 10 _ (by norm_num) (by omega)
  have bn1 : 10 ^ ln ≤ a.num.natAbs := Nat.pow_log_le_self 10 hn0
  have bn2 : a.num.natAbs < 10 ^ (ln + 1) := Nat.lt_pow_succ_log_self (by norm_num) _
  have bd1 : 10 ^ ld ≤ a.den := Nat.pow_log_le_self 10 (by omega)
  have bd2 : a.den < 10 ^ (ld + 1) := Nat.lt_pow_succ_log_self (by norm_num) _
  have hdQ : (0 : ℚ) < (a.den : ℚ) := by exact_mod_cast hd0
  have haval : a = (a.num.natAbs : ℚ) / (a.den : ℚ) := by
    conv_lhs => rw [← Rat.num_div_den a]
    congr 1
    rw [show ((a.num.natAbs : ℕ) : ℚ) = ((a.num.natAbs : ℤ) : ℚ) from
      (Int.cast_natCast _).symm, hnum]
  have hQn1 : (10 : ℚ) ^ ln ≤ (a.num.natAbs : ℚ) := by exact_mod_cast bn1
  have hQn2 : (a.num.natAbs : ℚ) < 10 ^ (ln + 1) := by exact_mod_cast bn2
  have hQd1 : (10 : ℚ) ^ ld ≤ (a.den : ℚ) := by exact_mod_cast bd1
  have hQd2 : (a.den : ℚ) < 10 ^ (ld + 1) := by exact_mod_cast bd2
  have hE : decExp a =
      if a < 10 ^ ((ln : ℤ) - ld) then (ln : ℤ) - ld - 1 else (ln : ℤ) - ld := by
    simp only [decExp, hLn, hLd]
    have hcast : ((ln + 1 : ℕ) : ℤ) - ((ld + 1 : ℕ) : ℤ) = (ln : ℤ) - ld := by
      push_cast; ring
    rw [hcast]
  have key1 : a < (10 : ℚ) ^ ((ln : ℤ) - ld + 1) := by
    rw [haval, div_lt_iff₀ hdQ]
    calc (a.num.natAbs : ℚ) < 10 ^ (ln + 1) := hQn2
      _ = 10 ^ ((ln : ℤ) - ld + 1) * 10 ^ ld := by
          rw [← zpow_natCast (10 : ℚ) (ln + 1), ← zpow_natCast (10 : ℚ) ld,
            ← zpow_add₀ (by norm_num : (10 : ℚ) ≠ 0)]
          congr 1
          push_cast
          ring
      _ ≤ 10 ^ ((ln : ℤ) - ld + 1) * (a.den : ℚ) := by
          apply mul_le_mul_of_nonneg_left hQd1 (by positivity)
  have key2 : (10 : ℚ) ^ ((ln : ℤ) - ld - 1) < a := by
    rw [haval, lt_div_iff₀ hdQ]
    calc (10 : ℚ) ^ ((ln : ℤ) - ld - 1) * (a.den : ℚ)
        < 10 ^ ((ln : ℤ) - ld - 1) * 10 ^ (ld + 1) := by
          apply mul_lt_mul_of_pos_left hQd2 (by positivity)
      _ = 10 ^ ln := by
          rw [← zpow_natCast (10 : ℚ) (ld + 1), ← zpow_natCast (10 : ℚ) ln,
            ← zpow_add₀ (by norm_num : (10 : ℚ) ≠ 0)]
          congr 1
          push_cast
          ring
      _ ≤ (a.num.natAbs : ℚ) := hQn1
  rw [hE]
  by_cases hc : a < 10 ^ ((ln : ℤ) - ld)
  · rw [if_pos hc]
    refine ⟨key2.le, ?_⟩
    have heq : (ln : ℤ) - ld - 1 + 1 = (ln : ℤ) - ld := by ring
    rw [heq]
    exact hc
  · rw [if_neg hc]
    exact ⟨not_lt.mp hc, key1⟩

/-! ### The scientific mantissa and its rounding error -/

theorem sciParts_zero : sciParts 0 = (0, 0) := by
  simp [sciParts]

theorem sciParts_spec (q : ℚ) (hq : q ≠ 0) :
    10 ^ 8 ≤ (sciParts q).1 ∧ (sciParts q).1 < 10 ^ 9 ∧
    abs (((sciParts q).1 : ℚ) * 10 ^ ((sciParts q).2 - 8) - |q|) ≤
      10 ^ (decExp |q| - 8) / 2 := by
  have ha : 0 < |q| := abs_pos.mpr hq
  obtain ⟨hlo, hhi⟩ := decExp_spec |q| ha
  have ht : (10 : ℚ) ≠ 0 := by norm_num
  set e := decExp |q| with he
  set x := |q| * 10 ^ ((8 : ℤ) - e) with hxdef
  have hpow : (0 : ℚ) < (10 : ℚ) ^ ((8 : ℤ) - e) := by positivity
  have hpow2 : (0 : ℚ) < (10 : ℚ) ^ (e - 8) := by positivity
  have hx_lo : (100000000 : ℚ) ≤ x := by
    have hcomb : (10 : ℚ) ^ (e : ℤ) * 10 ^ ((8 : ℤ) - e) = 100000000 := by
      rw [← zpow_add₀ ht]
      have hexp : e + ((8 : ℤ) - e) = 8 := by ring
      rw [hexp]
      norm_num
    rw [hxdef, ← hcomb]
    exact mul_le_mul_of_nonneg_right hlo hpow.le
  have hx_hi : x < (1000000000 : ℚ) := by
    have hcomb : (10 : ℚ) ^ (e + 1) * 10 ^ ((8 : ℤ) - e) = 1000000000 := by
      rw [← zpow_add₀ ht]
      have hexp : e + 1 + ((8 : ℤ) - e) = 9 := by ring
      rw [hexp]
      norm_num
    rw [hxdef, ← hcomb]
    exact mul_lt_mul_of_pos_right hhi hpow
  set s0 : ℤ := ⌊x + 1 / 2⌋ with hs0def
  have h1 : (s0 : ℚ) ≤ x + 1 / 2 := Int.floor_le _
  have h2 : x + 1 / 2 - 1 < (s0 : ℚ) := Int.sub_one_lt_floor _
  have hs0_lo : (100000000 : ℤ) ≤ s0 := by
    apply Int.le_floor.mpr
    push_cast
    linarith
  have hs0_hi : s0 ≤ 1000000000 := by
    have h3 : (s0 : ℚ) < 1000000001 := by linarith
    have h4 : s0 < 1000000001 := by exact_mod_cast h3
    omega
  have herr : |(s0 : ℚ) - x| ≤ 1 / 2 := abs_le.mpr ⟨by linarith, by linarith⟩
  have hqx : |q| = x * 10 ^ (e - 8) := by
    rw [hxdef, mul_assoc, ← zpow_add₀ ht]
    have hexp : (8 : ℤ) - e + (e - 8) = 0 := by ring
    rw [hexp, zpow_zero, mul_one]
  have hmul : ∀ y : ℚ, abs (y * 10 ^ (e - 8) - |q|) = |y - x| * 10 ^ (e - 8) := by
    intro y
    conv_lhs => rw [hqx]
    rw [← sub_mul, abs_mul, abs_of_pos hpow2]
  have hparts : sciParts q =
      if s0.toNat = 10 ^ 9 then (10 ^ 8, e + 1) else (s0.toNat, e) := by
    simp only [sciParts, if_neg hq]
  rw [hparts]
  by_cases hc : s0.toNat = 10 ^ 9
  · rw [if_pos hc]
    dsimp only
    have hc9 : s0.toNat = 1000000000 := by
      have h9 : (10 : ℕ) ^ 9 = 1000000000 := by norm_num
      rw [h9] at hc
      exact hc
    have hs0v : s0 = 1000000000 := by omega
    refine ⟨by norm_num, by norm_num, ?_⟩
    have hrw : ((10 ^ 8 : ℕ) : ℚ) * 10 ^ (e + 1 - 8) = (1000000000 : ℚ) * 10 ^ (e - 8) := by
      have l1 : ((10 ^ 8 : ℕ) : ℚ) = (10 : ℚ) ^ (8 : ℤ) := by norm_num
      have l2 : (1000000000 : ℚ) = (10 : ℚ) ^ (9 : ℤ) := by norm_num
      rw [l1, l2, ← zpow_add₀ ht, ← zpow_add₀ ht]
      congr 1
      ring
    rw [hrw, hmul]
    have hfq : ((1000000000 : ℤ) : ℚ) ≤ x + 1 / 2 := by
      rw [← hs0v]
      exact h1
    have hb : |(1000000000 : ℚ) - x| ≤ 1 / 2 := by
      push_cast at hfq
      exact abs_le.mpr ⟨by linarith, by linarith⟩
    calc |(1000000000 : ℚ) - x| * 10 ^ (e - 8)
        ≤ (1 / 2) * 10 ^ (e - 8) := mul_le_mul_of_nonneg_right hb hpow2.le
      _ = 10 ^ (e - 8) / 2 := by ring
  · rw [if_neg hc]
    dsimp only
    have hs0nn : (0 : ℤ) ≤ s0 := by omega
    have htn : (s0.toNat : ℚ) = (s0 : ℚ) := by exact_mod_cast Int.toNat_of_nonneg hs0nn
    refine ⟨?_, ?_, ?_⟩
    · have h8 : (10 : ℕ) ^ 8 = 100000000 := by norm_num
      rw [h8]
      omega
    · have h9 : (10 : ℕ) ^ 9 = 1000000000 := by norm_num
      rw [h9] at hc ⊢
      omega
    · rw [htn, hmul]
      calc |(s0 : ℚ) - x| * 10 ^ (e - 8)
          ≤ (1 / 2) * 10 ^ (e - 8) := mul_le_mul_of_nonneg_right herr hpow2.le
        _ = 10 ^ (e - 8) / 2 := by ring

theorem sciParts_fst_lt (q : ℚ) : (sciParts q).1 < 10 ^ 9 := by
  by_cases hq : q = 0
  · rw [hq, sciParts_zero]
    norm_num
  · exact (sciParts_spec q hq).2.1

theorem sciVal_zero : sciVal 0 = 0 := by
  simp [sciVal, sciParts_zero]

theorem tol8_nonneg (q : ℚ) : 0 ≤ tol8 q := by
  rw [tol8]
  positivity

theorem sciVal_close (q : ℚ) : |sciVal q - q| ≤ tol8 q := by
  by_cases hq : q = 0
  · rw [hq, sciVal_zero, sub_zero, abs_zero]
    exact tol8_nonneg 0
  · obtain ⟨-, -, herr⟩ := sciParts_spec q hq
    have hstep : (10 : ℚ) ^ (decExp |q| - 8) / 2 ≤ tol8 q := by
      rw [tol8]
      have hz := zpow_le_zpow_right₀ (by norm_num : (1 : ℚ) ≤ 10)
        (by omega : decExp |q| - 8 ≤ decExp |q| - 7)
      linarith
    refine le_trans ?_ hstep
    by_cases hneg : q < 0
    · have hV : sciVal q = -(((sciParts q).1 : ℚ) * 10 ^ ((sciParts q).2 - 8)) := by
        rw [sciVal, if_pos hneg]
        ring
      rw [hV]
      have habs : |q| = -q := abs_of_neg hneg
      have hflip : -(((sciParts q).1 : ℚ) * 10 ^ ((sciParts q).2 - 8)) - q =
          -((((sciParts q).1 : ℚ) * 10 ^ ((sciParts q).2 - 8)) - |q|) := by
        rw [habs]
        ring
      rw [hflip, abs_neg]
      exact herr
    · have habs : |q| = q := abs_of_nonneg (not_lt.mp hneg)
      have hV : sciVal q = ((sciParts q).1 : ℚ) * 10 ^ ((sciParts q).2 - 8) := by
        rw [sciVal, if_neg hneg]
        ring
      nth_rewrite 1 [habs] at herr
      rw [hV]
      exact herr

/-! ### Splitting and joining character lists -/

theorem splitOnChar_not_mem (c : Char) (l : List Char) (h : c ∉ l) :
    splitOnChar c l = [l] := by
  induction l with
  | nil => rfl
  | cons x xs ih =>
    have hx : x ≠ c := fun hxc => h (by simp [hxc])
    rw [splitOnChar]
    simp only [if_neg hx, ih (fun hc => h (by simp [hc]))]
    rfl

theorem splitOnChar_append (c : Char) (a rest : List Char) (h : c ∉ a) :
    splitOnChar c (a ++ c :: rest) = a :: splitOnChar c rest := by
  induction a with
  | nil =>
    rw [List.nil_append, splitOnChar]
    simp
  | cons x xs ih =>
    have hx : x ≠ c := fun hxc => h (by simp [hxc])
    rw [List.cons_append, splitOnChar]
    simp only [if_neg hx, ih (fun hc => h (by simp [hc]))]
    rfl

theorem splitOnChar_ne_nil (c : Char) (l : List Char) : splitOnChar c l ≠ [] := by
  induction l with
  | nil => simp [splitOnChar]
  | cons x xs ih =>
    rw [splitOnChar]
    by_cases hx : x = c
    · simp [hx]
    · simp only [if_neg hx]
      simp

theorem joinWith_split (c : Char) (pieces : List (List Char)) (hne : pieces ≠ [])
    (h : ∀ p ∈ pieces, c ∉ p) : splitOnChar c (joinWith c pieces) = pieces := by
  induction pieces with
  | nil => exact absurd rfl hne
  | cons x xs ih =>
    cases xs with
    | nil => exact splitOnChar_not_mem c x (h x (by simp))
    | cons y ys =>
      rw [joinWith, splitOnChar_append c x _ (h x (by simp)),
        ih (by simp) (fun p hp => h p (by simp [hp]))]

theorem joinWith_ne_nil (c : Char) (p : List Char) (ps : List (List Char)) (hp : p ≠ []) :
    joinWith c (p :: ps) ≠ [] := by
  cases ps with
  | nil => simpa [joinWith] using hp
  | cons y ys =>
    rw [joinWith]
    simp

theorem getLast?_ne_of_not_mem (l : List Char) (x : Char) (h : x ∉ l) :
    l.getLast? ≠ some x := by
  intro hc
  obtain ⟨hne, heq⟩ := List.mem_getLast?_eq_getLast (show x ∈ l.getLast? from hc ▸ rfl)
  exact h (heq ▸ List.getLast_mem hne)

theorem joinWith_getLast? (c : Char) (pieces : List (List Char))
    (hlast : ∀ p ∈ pieces, p ≠ []) (h : ∀ p ∈ pieces, c ∉ p) :
    (joinWith c pieces).getLast? ≠ some c := by
  induction pieces with
  | nil => simp [joinWith]
  | cons x xs ih =>
    cases xs with
    | nil =>
      rw [joinWith]
      exact getLast?_ne_of_not_mem x c (h x (by simp))
    | cons y ys =>
      rw [joinWith, List.getLast?_append_cons]
      have hy : joinWith c (y :: ys) ≠ [] :=
        joinWith_ne_nil c y ys (hlast y (by simp))
      have ihr := ih (fun p hp => hlast p (by simp [hp])) (fun p hp => h p (by simp [hp]))
      cases hj : joinWith c (y :: ys) with
      | nil => exact absurd hj hy
      | cons z zs =>
        rw [List.getLast?_cons_cons]
        rw [hj] at ihr
        exact ihr

/-! ### Character classes of the rendered fields -/

theorem sciParts_div_lt (q : ℚ) : (sciParts q).1 / 10 ^ 8 < 10 :=
  (Nat.div_lt_iff_lt_mul (by norm_num : 0 < 10 ^ 8)).mpr
    (by have := sciParts_fst_lt q; norm_num at this ⊢; omega)

theorem sciParts_mod_lt (q : ℚ) : (sciParts q).1 % 10 ^ 8 < 10 ^ 8 :=
  Nat.mod_lt _ (by norm_num)

theorem renderNat_chars (len n : ℕ) (c : Char) (hc : c ∈ renderNat len n) :
    ∃ d, d < 10 ∧ c = digitChar d := by
  rw [renderNat] at hc
  obtain ⟨d, hd, rfl⟩ := List.mem_map.mp hc
  exact ⟨d, padDigits_lt len n d hd, rfl⟩

theorem mem_coreChars (q : ℚ) (c : Char) (hc : c ∈ coreChars q) :
    (∃ d, d < 10 ∧ c = digitChar d) ∨ c = '.' ∨ c = 'e' ∨ c = '+' ∨ c = '-' := by
  rw [coreChars] at hc
  rcases List.mem_cons.mp hc with rfl | hc
  · exact Or.inl ⟨_, sciParts_div_lt q, rfl⟩
  rcases List.mem_cons.mp hc with rfl | hc
  · exact Or.inr (Or.inl rfl)
  rcases List.mem_append.mp hc with h | h
  · exact Or.inl (renderNat_chars _ _ c h)
  rcases List.mem_cons.mp h with rfl | h
  · exact Or.inr (Or.inr (Or.inl rfl))
  rw [expoChars] at h
  rcases List.mem_cons.mp h with rfl | h
  · by_cases hE : (sciParts q).2 < 0
    · rw [if_pos hE]
      exact Or.inr (Or.inr (Or.inr (Or.inr rfl)))
    · rw [if_neg hE]
      exact Or.inr (Or.inr (Or.inr (Or.inl rfl)))
  · exact Or.inl (renderNat_chars _ _ c h)

theorem coreChars_not_space (q : ℚ) : ' ' ∉ coreChars q := by
  intro h
  rcases mem_coreChars q ' ' h with ⟨d, hd, he⟩ | he | he | he | he
  · exact digitChar_ne_space d hd he.symm
  all_goals exact absurd he (by decide)

theorem coreChars_not_nl (q : ℚ) : '\n' ∉ coreChars q := by
  intro h
  rcases mem_coreChars q '\n' h with ⟨d, hd, he⟩ | he | he | he | he
  · exact digitChar_ne_nl d hd he.symm
  all_goals exact absurd he (by decide)

theorem fieldChars_not_nl (q : ℚ) : '\n' ∉ fieldChars q := by
  intro h
  rw [fieldChars] at h
  rcases List.mem_cons.mp h with he | h
  · by_cases hq : q < 0
    · rw [if_pos hq] at he
      exact absurd he (by decide)
    · rw [if_neg hq] at he
      exact absurd he (by decide)
  · exact coreChars_not_nl q h

theorem lineChars_not_nl (row : List ℚ) : '\n' ∉ lineChars row := by
  rw [lineChars]
  induction row with
  | nil => simp [joinWith]
  | cons q rest ih =>
    cases rest with
    | nil =>
      rw [List.map_cons, List.map_nil]
      simp only [joinWith]
      exact fieldChars_not_nl q
    | cons y ys =>
      rw [List.map_cons, List.map_cons, joinWith]
      intro h
      rcases List.mem_append.mp h with h | h
      · exact fieldChars_not_nl q h
      · rcases List.mem_cons.mp h with he | h
        · exact absurd he (by decide)
        · exact ih (by rw [List.map_cons]; exact h)

theorem lineChars_ne_nil (row : List ℚ) (h : row ≠ []) : lineChars row ≠ [] := by
  cases row with
  | nil => exact absurd rfl h
  | cons q rest =>
    rw [lineChars, List.map_cons]
    refine joinWith_ne_nil ' ' (fieldChars q) _ ?_
    rw [fieldChars]
    simp

/-! ### Tokenization of one line -/

theorem filter_split_field (q : ℚ) :
    (splitOnChar ' ' (fieldChars q)).filter (fun t => t ≠ []) = [tokenChars q] := by
  have hsplit := splitOnChar_not_mem ' ' (coreChars q) (coreChars_not_space q)
  have hcne : coreChars q ≠ [] := by rw [coreChars]; simp
  by_cases hq : q < 0
  · rw [fieldChars, if_pos hq, splitOnChar]
    simp only [hsplit]
    rw [tokenChars, if_pos hq]
    simp [hcne]
  · rw [fieldChars, if_neg hq, splitOnChar]
    simp only [hsplit]
    rw [tokenChars, if_neg hq]
    simp [hcne]

theorem filter_split_field_append (q : ℚ) (rest : List Char) :
    (splitOnChar ' ' (fieldChars q ++ ' ' :: rest)).filter (fun t => t ≠ []) =
      tokenChars q :: (splitOnChar ' ' rest).filter (fun t => t ≠ []) := by
  have hcne : coreChars q ≠ [] := by rw [coreChars]; simp
  by_cases hq : q < 0
  · rw [fieldChars, if_pos hq, List.cons_append, splitOnChar]
    have hsp := splitOnChar_append ' ' (coreChars q) rest (coreChars_not_space q)
    simp only [hsp]
    rw [tokenChars, if_pos hq]
    simp [hcne]
  · rw [fieldChars, if_neg hq, List.cons_append, splitOnChar]
    have hsp := splitOnChar_append ' ' (coreChars q) rest (coreChars_not_space q)
    simp only [hsp]
    rw [tokenChars, if_neg hq]
    simp [hcne]

theorem tokensOf_lineChars (row : List ℚ) :
    tokensOf (lineChars row) = row.map tokenChars := by
  induction row with
  | nil => rfl
  | cons q rest ih =>
    cases rest with
    | nil =>
      rw [lineChars, List.map_cons, List.map_nil]
      simp only [joinWith]
      rw [tokensOf, filter_split_field, List.map_cons, List.map_nil]
    | cons y ys =>
      rw [lineChars, List.map_cons, List.map_cons, joinWith, tokensOf,
        filter_split_field_append, List.map_cons]
      rw [← ih, tokensOf, lineChars, List.map_cons]

theorem renderNat_length (len n : ℕ) (h : n < 10 ^ len) : (renderNat len n).length = len := by
  rw [renderNat, List.length_map, padDigits_length len n h]

theorem tokenChars_isSci (q : ℚ) : IsSciE8 (tokenChars q) := by
  have hd := sciParts_div_lt q
  have hfrac : (padDigits 8 ((sciParts q).1 % 10 ^ 8)).length = 8 :=
    padDigits_length 8 _ (sciParts_mod_lt q)
  by_cases hq : q < 0
  · by_cases hE : (sciParts q).2 < 0
    · exact ⟨true, (sciParts q).1 / 10 ^ 8, padDigits 8 ((sciParts q).1 % 10 ^ 8),
        padDigits 2 (sciParts q).2.natAbs, true, hd, hfrac, padDigits_lt _ _,
        padDigits_length_ge 2 _, padDigits_lt _ _, by
          rw [tokenChars, if_pos hq, coreChars, expoChars, if_pos hE]
          rfl⟩
    · exact ⟨true, (sciParts q).1 / 10 ^ 8, padDigits 8 ((sciParts q).1 % 10 ^ 8),
        padDigits 2 (sciParts q).2.natAbs, false, hd, hfrac, padDigits_lt _ _,
        padDigits_length_ge 2 _, padDigits_lt _ _, by
          rw [tokenChars, if_pos hq, coreChars, expoChars, if_neg hE]
          rfl⟩
  · by_cases hE : (sciParts q).2 < 0
    · exact ⟨false, (sciParts q).1 / 10 ^ 8, padDigits 8 ((sciParts q).1 % 10 ^ 8),
        padDigits 2 (sciParts q).2.natAbs, true, hd, hfrac, padDigits_lt _ _,
        padDigits_length_ge 2 _, padDigits_lt _ _, by
          rw [tokenChars, if_neg hq, coreChars, expoChars, if_pos hE]
          rfl⟩
    · exact ⟨false, (sciParts q).1 / 10 ^ 8, padDigits 8 ((sciParts q).1 % 10 ^ 8),
        padDigits 2 (sciParts q).2.natAbs, false, hd, hfrac, padDigits_lt _ _,
        padDigits_length_ge 2 _, padDigits_lt _ _, by
          rw [tokenChars, if_neg hq, coreChars, expoChars, if_neg hE]
          rfl⟩

/-! ### Parsing a rendered field recovers the rounded value -/

theorem parseExpo_expoChars (E : ℤ) : parseExpo (expoChars E) = some E := by
  by_cases hE : E < 0
  · rw [expoChars, if_pos hE]
    simp only [parseExpo, parseDigitList_renderNat, Option.map_some']
    have habs : -(E.natAbs : ℤ) = E := by omega
    rw [habs]
  · rw [expoChars, if_neg hE]
    simp only [parseExpo, parseDigitList_renderNat, Option.map_some']
    have habs : (E.natAbs : ℤ) = E := by omega
    rw [habs]

theorem expoChars_not_e (E : ℤ) : 'e' ∉ expoChars E := by
  intro h
  rw [expoChars] at h
  rcases List.mem_cons.mp h with he | h
  · by_cases hE : E < 0
    · rw [if_pos hE] at he
      exact absurd he (by decide)
    · rw [if_neg hE] at he
      exact absurd he (by decide)
  · obtain ⟨d, hd, he⟩ := renderNat_chars _ _ 'e' h
    exact digitChar_ne_e d hd he.symm

theorem mant_not_e (q : ℚ) :
    'e' ∉ (digitChar ((sciParts q).1 / 10 ^ 8) :: '.' ::
      renderNat 8 ((sciParts q).1 % 10 ^ 8)) := by
  intro h
  rcases List.mem_cons.mp h with he | h
  · exact digitChar_ne_e _ (sciParts_div_lt q) he.symm
  rcases List.mem_cons.mp h with he | h
  · exact absurd he (by decide)
  · obtain ⟨d, hd, he⟩ := renderNat_chars _ _ 'e' h
    exact digitChar_ne_e d hd he.symm

theorem splitOnChar_core (q : ℚ) :
    splitOnChar 'e' (coreChars q) =
      [digitChar ((sciParts q).1 / 10 ^ 8) :: '.' :: renderNat 8 ((sciParts q).1 % 10 ^ 8),
       expoChars (sciParts q).2] := by
  rw [coreChars]
  have hassoc : digitChar ((sciParts q).1 / 10 ^ 8) :: '.' ::
      (renderNat 8 ((sciParts q).1 % 10 ^ 8) ++ 'e' :: expoChars (sciParts q).2) =
      (digitChar ((sciParts q).1 / 10 ^ 8) :: '.' ::
        renderNat 8 ((sciParts q).1 % 10 ^ 8)) ++ 'e' :: expoChars (sciParts q).2 := by
    simp
  rw [hassoc, splitOnChar_append 'e' _ _ (mant_not_e q),
    splitOnChar_not_mem 'e' _ (expoChars_not_e (sciParts q).2)]

theorem parseSciPos_coreChars (q : ℚ) :
    parseSciPos (coreChars q) =
      some (((sciParts q).1 : ℚ) * 10 ^ ((sciParts q).2 - 8)) := by
  rw [parseSciPos.eq_def, splitOnChar_core q]
  simp only [parseExpo_expoChars, digitVal_digitChar _ (sciParts_div_lt q),
    parseDigitList_renderNat]
  rw [renderNat_length 8 _ (sciParts_mod_lt q)]
  congr 1
  have hv : ((sciParts q).1 : ℚ) =
      10 ^ (8 : ℕ) * (((sciParts q).1 / 10 ^ 8 : ℕ) : ℚ) +
        (((sciParts q).1 % 10 ^ 8 : ℕ) : ℚ) := by
    exact_mod_cast (Nat.div_add_mod (sciParts q).1 (10 ^ 8)).symm
  have hzp : (10 : ℚ) ^ ((sciParts q).2 - 8) = 10 ^ (sciParts q).2 / 10 ^ (8 : ℕ) := by
    rw [zpow_sub₀ (by norm_num : (10 : ℚ) ≠ 0)]
    norm_num
  rw [hzp, hv]
  field_simp
  ring_nf
  try exact Or.inl trivial

theorem parseSci_tokenChars (q : ℚ) : parseSci (tokenChars q) = some (sciVal q) := by
  by_cases hq : q < 0
  · rw [tokenChars, if_pos hq]
    simp only [parseSci, if_true]
    rw [parseSciPos_coreChars q]
    simp only [Option.map_some']
    congr 1
    rw [sciVal, if_pos hq]
    ring
  · rw [tokenChars, if_neg hq]
    rw [coreChars]
    simp only [parseSci]
    rw [if_neg (digitChar_ne_minus _ (sciParts_div_lt q))]
    change parseSciPos (coreChars q) = _
    rw [parseSciPos_coreChars q]
    congr 1
    rw [sciVal, if_neg hq]
    ring

/-! ### Table-level structure -/

theorem windRow_ne_nil {α : Type} [Zero α] (t l v : α) : windRow t l v ≠ [] := by
  intro h
  have hlen := windRow_length t l v
  rw [h] at hlen
  simp at hlen

theorem windMatrix_rows {α : Type} [Zero α] (times lw v : List α) :
    ∀ row ∈ windMatrix times lw v, ∃ a b c : α, row = windRow a b c := by
  intro row hrow
  rw [windMatrix] at hrow
  obtain ⟨p, -, hp⟩ := List.mem_map.mp hrow
  exact ⟨p.1, p.2.1, p.2.2, hp.symm⟩

theorem table_lines (times lw v : List ℚ) (hne : times ≠ [])
    (h1 : lw.length = times.length) (h2 : v.length = times.length) :
    splitOnChar '\n' (write_wind_table times lw v) =
      (windMatrix times lw v).map lineChars := by
  rw [write_wind_table]
  apply joinWith_split
  · intro hmap
    rw [List.map_eq_nil_iff] at hmap
    have := windMatrix_length times lw v h1 h2
    rw [hmap] at this
    exact hne (List.length_eq_zero.mp this.symm)
  · intro p hp
    obtain ⟨row, -, hlr⟩ := List.mem_map.mp hp
    rw [← hlr]
    exact lineChars_not_nl row

theorem write_ne_nil (times lw v : List ℚ) (hne : times ≠ [])
    (h1 : lw.length = times.length) (h2 : v.length = times.length) :
    write_wind_table times lw v ≠ [] := by
  rw [write_wind_table]
  cases hm : (windMatrix times lw v).map lineChars with
  | nil =>
    rw [List.map_eq_nil_iff] at hm
    have := windMatrix_length times lw v h1 h2
    rw [hm] at this
    exact absurd (List.length_eq_zero.mp this.symm) hne
  | cons p ps =>
    apply joinWith_ne_nil
    have hp : p ∈ (windMatrix times lw v).map lineChars := by rw [hm]; simp
    obtain ⟨row, hrow, hlr⟩ := List.mem_map.mp hp
    obtain ⟨a, b, c, hr⟩ := windMatrix_rows times lw v row hrow
    rw [← hlr, hr]
    exact lineChars_ne_nil _ (windRow_ne_nil a b c)

/-- C7 (amended): the text produced by `write_wind_table` consists of one
line per time sample, newline-separated with no trailing newline; each
line tokenizes into exactly 63 whitespace-separated fields, each a signed
scientific-notation field with one digit before the decimal point, eight
digits after it (nine significant digits in total), and a signed exponent
of at least two digits. -/
theorem table_text_format (times lw v : List ℚ)
    (h1 : lw.length = times.length) (h2 : v.length = times.length) (hne : times ≠ []) :
    (splitOnChar '\n' (write_wind_table times lw v)).length = times.length ∧
    (∀ line ∈ splitOnChar '\n' (write_wind_table times lw v),
      (tokensOf line).length = 63 ∧ ∀ tok ∈ tokensOf line, IsSciE8 tok) ∧
    (write_wind_table times lw v).getLast? ≠ some '\n' := by
  have hsplit := table_lines times lw v hne h1 h2
  refine ⟨?_, ?_, ?_⟩
  · rw [hsplit, List.length_map, windMatrix_length times lw v h1 h2]
  · intro line hline
    rw [hsplit] at hline
    obtain ⟨row, hrow, hlr⟩ := List.mem_map.mp hline
    obtain ⟨a, b, c, hr⟩ := windMatrix_rows times lw v row hrow
    rw [← hlr, tokensOf_lineChars]
    constructor
    · rw [List.length_map, hr, windRow_length]
    · intro tok htok
      obtain ⟨q, -, hq⟩ := List.mem_map.mp htok
      rw [← hq]
      exact tokenChars_isSci q
  · rw [write_wind_table]
    apply joinWith_getLast?
    · intro p hp
      obtain ⟨row, hrow, hlr⟩ := List.mem_map.mp hp
      obtain ⟨a, b, c, hr⟩ := windMatrix_rows times lw v row hrow
      rw [← hlr, hr]
      exact lineChars_ne_nil _ (windRow_ne_nil a b c)
    · intro p hp
      obtain ⟨row, -, hlr⟩ := List.mem_map.mp hp
      rw [← hlr]
      exact lineChars_not_nl row

theorem table_text_format_witness :
    ([(1 : ℚ)].length = [(1 : ℚ)].length) ∧ ([(1 : ℚ)].length = [(1 : ℚ)].length) ∧
    ([(1 : ℚ)] ≠ []) ∧
    ((splitOnChar '\n' (write_wind_table [(1 : ℚ)] [(1 : ℚ)] [(1 : ℚ)])).length =
        [(1 : ℚ)].length ∧
     (∀ line ∈ splitOnChar '\n' (write_wind_table [(1 : ℚ)] [(1 : ℚ)] [(1 : ℚ)]),
       (tokensOf line).length = 63 ∧ ∀ tok ∈ tokensOf line, IsSciE8 tok) ∧
     (write_wind_table [(1 : ℚ)] [(1 : ℚ)] [(1 : ℚ)]).getLast? ≠ some '\n') :=
  ⟨rfl, rfl, by simp,
    table_text_format [(1 : ℚ)] [(1 : ℚ)] [(1 : ℚ)] rfl rfl (by simp)⟩

/-! ### The first field of a concrete table -/

theorem natDigits_one : natDigits 1 = [1] := rfl

theorem decExp_one : decExp (1 : ℚ) = 0 := by
  simp only [decExp]
  have h1 : (1 : ℚ).num.natAbs = 1 := rfl
  have h2 : (1 : ℚ).den = 1 := rfl
  rw [h1, h2, natDigits_one]
  norm_num

theorem sciParts_one : sciParts 1 = (10 ^ 8, 0) := by
  simp only [sciParts]
  rw [if_neg one_ne_zero, abs_one, decExp_one]
  have hfl : ((⌊(1 : ℚ) * 10 ^ ((8 : ℤ) - 0) + 1 / 2⌋).toNat) = 10 ^ 8 := by
    norm_num
    rfl
  rw [hfl]
  norm_num

theorem fieldChars_one :
    fieldChars 1 = [' ', '1', '.', '0', '0', '0', '0', '0', '0', '0', '0', 'e', '+', '0', '0'] := by
  rw [fieldChars, if_neg (by norm_num : ¬(1 : ℚ) < 0), coreChars, sciParts_one]
  rfl

theorem lineChars_take (q : ℚ) (rest : List ℚ) :
    (lineChars (q :: rest)).take (fieldChars q).length = fieldChars q := by
  cases rest with
  | nil =>
    rw [lineChars, List.map_cons, List.map_nil]
    simp only [joinWith]
    exact List.take_length _
  | cons y ys =>
    rw [lineChars, List.map_cons, List.map_cons, joinWith]
    exact List.take_left _ _

/-- C7 counterexample: the first field written for the value `1` is
`" 1.00000000e+00"`: its mantissa (the digits before the exponent marker)
carries nine significant digits, not eight — the `% .8e` conversion keeps
eight digits after the decimal point plus one before it. -/
theorem table_field_nine_digits :
    (write_wind_table [1] [1] [1]).take 15 =
      [' ', '1', '.', '0', '0', '0', '0', '0', '0', '0', '0', 'e', '+', '0', '0'] ∧
    ((((write_wind_table [1] [1] [1]).take 15).takeWhile fun c => c ≠ 'e').filter
        (fun c => c.isDigit)).length = 9 := by
  have hw : write_wind_table [(1 : ℚ)] [1] [1] = lineChars (windRow (1 : ℚ) 1 1) := rfl
  have hrow : windRow (1 : ℚ) 1 1 = (1 : ℚ) :: 1 :: 0 :: 1 :: List.replicate 59 0 := rfl
  have hlen : (fieldChars (1 : ℚ)).length = 15 := by
    rw [fieldChars_one]
    rfl
  have h15 : (write_wind_table [(1 : ℚ)] [1] [1]).take 15 =
      [' ', '1', '.', '0', '0', '0', '0', '0', '0', '0', '0', 'e', '+', '0', '0'] := by
    rw [hw, hrow, ← hlen, lineChars_take, fieldChars_one]
  exact ⟨h15, by rw [h15]; decide⟩

/-! ### The round trip through the written table -/

theorem filterMap_some_map (f : ℚ → ℚ) (l : List ℚ) :
    l.filterMap (fun x => some (f x)) = l.map f := by
  induction l with
  | nil => rfl
  | cons a t ih => simp [List.filterMap_cons, ih]

theorem parseTable_write (times lw v : List ℚ) (h1 : lw.length = times.length)
    (h2 : v.length = times.length) :
    parseTable (write_wind_table times lw v) =
      (windMatrix times lw v).map (List.map sciVal) := by
  by_cases hne : times = []
  · subst hne
    simp [parseTable, write_wind_table, windMatrix, joinWith]
  · have hwne := write_ne_nil times lw v hne h1 h2
    rw [parseTable, if_neg hwne, table_lines times lw v hne h1 h2, List.map_map]
    apply List.map_congr_left
    intro row hrow
    show (tokensOf (lineChars row)).filterMap parseSci = List.map sciVal row
    rw [tokensOf_lineChars, List.filterMap_map]
    have hfun : (parseSci ∘ tokenChars) = fun q => some (sciVal q) := by
      funext q
      exact parseSci_tokenChars q
    rw [hfun, filterMap_some_map]

/-- C8: parsing the table text produced by `write_wind_table` back into a
63-column numeric matrix reproduces the original time, luminosity, and
velocity arrays within the formatting tolerance (half a unit in the
eighth significant decimal digit). -/
theorem table_roundtrip (times lw v : List ℚ) (h1 : lw.length = times.length)
    (h2 : v.length = times.length) :
    (parseTable (write_wind_table times lw v)).length = times.length ∧
    ∀ i : ℕ, i < times.length →
      ((parseTable (write_wind_table times lw v)).getD i []).length = 63 ∧
      |((parseTable (write_wind_table times lw v)).getD i []).getD 0 0 - times.getD i 0| ≤
        tol8 (times.getD i 0) ∧
      |((parseTable (write_wind_table times lw v)).getD i []).getD 1 0 - lw.getD i 0| ≤
        tol8 (lw.getD i 0) ∧
      |((parseTable (write_wind_table times lw v)).getD i []).getD 3 0 - v.getD i 0| ≤
        tol8 (v.getD i 0) := by
  rw [parseTable_write times lw v h1 h2]
  refine ⟨by rw [List.length_map, windMatrix_length times lw v h1 h2], ?_⟩
  intro i hi
  have hmlen : i < (windMatrix times lw v).length := by
    rw [windMatrix_length times lw v h1 h2]
    exact hi
  rw [getD_map (List.map sciVal) _ i [] [] hmlen, windMatrix_getD times lw v h1 h2 i hi]
  refine ⟨by rw [List.length_map, windRow_length], ?_, ?_, ?_⟩
  · rw [getD_map sciVal _ 0 0 0 (by rw [windRow_length]; norm_num),
      windRow_getD _ _ _ 0 (by norm_num)]
    simp only [if_pos rfl]
    exact sciVal_close _
  · rw [getD_map sciVal _ 1 0 0 (by rw [windRow_length]; norm_num),
      windRow_getD _ _ _ 1 (by norm_num)]
    norm_num
    exact sciVal_close _
  · rw [getD_map sciVal _ 3 0 0 (by rw [windRow_length]; norm_num),
      windRow_getD _ _ _ 3 (by norm_num)]
    norm_num
    exact sciVal_close _

theorem table_roundtrip_witness :
    ([(1 : ℚ)].length = [(1 : ℚ)].length) ∧ ([(1 : ℚ)].length = [(1 : ℚ)].length) ∧
    ((parseTable (write_wind_table [(1 : ℚ)] [(1 : ℚ)] [(1 : ℚ)])).length =
        [(1 : ℚ)].length ∧
     ∀ i : ℕ, i < [(1 : ℚ)].length →
       ((parseTable (write_wind_table [(1 : ℚ)] [(1 : ℚ)] [(1 : ℚ)])).getD i []).length = 63 ∧
       |((parseTable (write_wind_table [(1 : ℚ)] [(1 : ℚ)] [(1 : ℚ)])).getD i []).getD 0 0 -
           [(1 : ℚ)].getD i 0| ≤ tol8 ([(1 : ℚ)].getD i 0) ∧
       |((parseTable (write_wind_table [(1 : ℚ)] [(1 : ℚ)] [(1 : ℚ)])).getD i []).getD 1 0 -
           [(1 : ℚ)].getD i 0| ≤ tol8 ([(1 : ℚ)].getD i 0) ∧
       |((parseTable (write_wind_table [(1 : ℚ)] [(1 : ℚ)] [(1 : ℚ)])).getD i []).getD 3 0 -
           [(1 : ℚ)].getD i 0| ≤ tol8 ([(1 : ℚ)].getD i 0)) :=
  ⟨rfl, rfl, table_roundtrip [(1 : ℚ)] [(1 : ℚ)] [(1 : ℚ)] rfl rfl⟩

end WindGen
